import Mathlib

/-!
Verification of the resilient streamed-JSON decoder of
`prolog_agent/stream_patch.py` (`_patched_receive_messages` and its helpers).

Text is modelled as `List Char`.  The decoder is embedded as pure functions:
the per-fragment buffer loop (`processBuffer` / `processFragments`), the
end-of-stream flush (`flush`), the stderr drain (`drainStderr`) and the exit
correlation (`exitCorrelate`), composed by `receiveMessages`.  The structured
value parser (Python's `json.loads`, external to the repository) is modelled
by `jsonParse`; the decoder itself is parametric in the parse function, just
as the source is parametric in `json.loads`.
-/

namespace StreamPatch

/-- A piece of text, one character per list element. -/
abbrev Text := List Char

/-- The whitespace characters stripped by Python's `str.strip` (ASCII range). -/
def isSpace (c : Char) : Bool :=
  c = ' ' || c = '\t' || c = '\n' || c = '\r' || c = '\x0b' || c = '\x0c'

/-- Python `str.lstrip()`: drop leading whitespace. -/
def lstrip (s : Text) : Text := s.dropWhile isSpace

/-- Python-style right strip: drop trailing whitespace. -/
def rstrip (s : Text) : Text := (s.reverse.dropWhile isSpace).reverse

/-- Python `str.strip()`: drop leading and trailing whitespace. -/
def strip (s : Text) : Text := rstrip (lstrip s)

/-- Modelled from the spec: a structured value ("a parsed tree of
mappings/sequences/scalars"), the result type of the external `json.loads`. -/
inductive Json where
  | null
  | bool (b : Bool)
  | num (n : Int)
  | str (s : Text)
  | arr (elems : List Json)
  | obj (members : List (Text × Json))

/-- JSON insignificant whitespace. -/
def isJsonWs (c : Char) : Bool :=
  c = ' ' || c = '\t' || c = '\n' || c = '\r'

/-- Skip JSON insignificant whitespace. -/
def skipWs (s : Text) : Text := s.dropWhile isJsonWs

/-- Modelled from the spec: JSON string escape characters. -/
def escChar (c : Char) : Option Char :=
  if c = '\"' then some '\"'
  else if c = '\\' then some '\\'
  else if c = '/' then some '/'
  else if c = 'n' then some '\n'
  else if c = 't' then some '\t'
  else if c = 'r' then some '\r'
  else if c = 'b' then some '\x08'
  else if c = 'f' then some '\x0c'
  else none

/-- Modelled from the spec: the body of a JSON string after the opening
quote; returns the decoded characters and the rest after the closing quote. -/
def parseStrBody : Text → Option (Text × Text)
  | [] => none
  | '\"' :: r => some ([], r)
  | '\\' :: e :: r =>
    match escChar e, parseStrBody r with
    | some c, some (cs, r2) => some (c :: cs, r2)
    | _, _ => none
  | c :: r =>
    if c.toNat < 32 then none
    else
      match parseStrBody r with
      | some (cs, r2) => some (c :: cs, r2)
      | none => none

/-- Digit run accumulator for number literals. -/
def digitsAux : Nat → Text → Nat × Text
  | acc, [] => (acc, [])
  | acc, c :: r =>
    if c.isDigit then digitsAux (acc * 10 + (c.toNat - 48)) r else (acc, c :: r)

/-- Modelled from the spec: JSON integer literals (the scalar fragment needed
here; an optional minus sign followed by a digit run). -/
def parseNum : Text → Option (Json × Text)
  | '-' :: r =>
    match r with
    | c :: _ =>
      if c.isDigit then
        some (.num (-((digitsAux 0 r).1 : Int)), (digitsAux 0 r).2)
      else none
    | [] => none
  | c :: r =>
    if c.isDigit then
      some (.num ((digitsAux 0 (c :: r)).1 : Int), (digitsAux 0 (c :: r)).2)
    else none
  | [] => none

/-- Parsing mode: a single value, the elements of an array after `[`, or the
members of an object after `\x7b`. -/
inductive PMode where
  | val
  | elems (acc : List Json)
  | members (acc : List (Text × Json))

/-- Modelled from the spec: fuelled recursive-descent parser for structured
values (the external `json.loads`); the fuel only bounds nesting and element
count and is chosen large enough by `jsonParse`. -/
def parseP : Nat → PMode → Text → Option (Json × Text)
  | 0, _, _ => none
  | f + 1, .val, s =>
    match skipWs s with
    | 'n' :: 'u' :: 'l' :: 'l' :: r => some (.null, r)
    | 't' :: 'r' :: 'u' :: 'e' :: r => some (.bool true, r)
    | 'f' :: 'a' :: 'l' :: 's' :: 'e' :: r => some (.bool false, r)
    | '\"' :: r =>
      match parseStrBody r with
      | some (cs, r2) => some (.str cs, r2)
      | none => none
    | '[' :: r =>
      (match skipWs r with
       | ']' :: r2 => some (.arr [], r2)
       | _ => parseP f (.elems []) r)
    | '{' :: r =>
      (match skipWs r with
       | '}' :: r2 => some (.obj [], r2)
       | _ => parseP f (.members []) r)
    | other => parseNum other
  | f + 1, .elems acc, s =>
    match parseP f .val s with
    | some (v, r) =>
      (match skipWs r with
       | ',' :: r2 => parseP f (.elems (acc ++ [v])) r2
       | ']' :: r2 => some (.arr (acc ++ [v]), r2)
       | _ => none)
    | none => none
  | f + 1, .members acc, s =>
    match skipWs s with
    | '\"' :: r =>
      (match parseStrBody r with
       | some (k, r2) =>
         (match skipWs r2 with
          | ':' :: r3 =>
            (match parseP f .val r3 with
             | some (v, r4) =>
               (match skipWs r4 with
                | ',' :: r5 => parseP f (.members (acc ++ [(k, v)])) r5
                | '}' :: r5 => some (.obj (acc ++ [(k, v)]), r5)
                | _ => none)
             | none => none)
          | _ => none)
       | none => none)
    | _ => none

/-- Modelled from the spec: the external `json.loads` — parse one structured
value and require that only whitespace follows it. -/
def jsonParse (s : Text) : Option Json :=
  match parseP (2 * s.length + 2) .val s with
  | some (v, r) => if skipWs r = [] then some v else none
  | none => none

/-- Python `buffer.split("\n", 1)`: the part before the first newline and the
part after it (the whole text and `[]` when there is no newline). -/
def splitNL : Text → Text × Text
  | [] => ([], [])
  | c :: cs =>
    if c = '\n' then ([], cs)
    else
      let p := splitNL cs
      (c :: p.1, p.2)

/-- The inner `while "\n" in buffer` loop of `_patched_receive_messages`,
fuelled (the fuel is only a structural-recursion device; `processBuffer`
supplies enough).  Splits off complete lines: whitespace-only lines are
discarded, parsed lines are emitted, and a line that fails to parse is
re-inserted as `line ++ "\n" ++ rest` and the loop stops. -/
def processBufferAux {V : Type} (parse : Text → Option V) :
    Nat → Text → List V × Text
  | 0, buffer => ([], buffer)
  | fuel + 1, buffer =>
    if '\n' ∈ buffer then
      let line := (splitNL buffer).1
      let rest := (splitNL buffer).2
      if strip line = [] then processBufferAux parse fuel rest
      else
        match parse (strip line) with
        | some v =>
          let q := processBufferAux parse fuel rest
          (v :: q.1, q.2)
        | none => ([], line ++ '\n' :: rest)
    else ([], buffer)

/-- The inner line-splitting loop of `_patched_receive_messages` on one
buffer state: the messages it emits and the buffer it leaves behind. -/
def processBuffer {V : Type} (parse : Text → Option V) (buffer : Text) :
    List V × Text :=
  processBufferAux parse (buffer.length + 1) buffer

/-- The `async for chunk in self._stdout_stream` loop: each fragment is
appended to the buffer and the buffer is processed; returns all messages
emitted in order and the final buffer. -/
def processFragments {V : Type} (parse : Text → Option V) :
    List Text → Text → List V × Text
  | [], buffer => ([], buffer)
  | f :: fs, buffer =>
    let st := processBuffer parse (buffer ++ f)
    let re := processFragments parse fs st.2
    (st.1 ++ re.1, re.2)

/-- The text of a list of lines, each line followed by one newline. -/
def withNewlines : List Text → Text
  | [] => []
  | u :: us => u ++ '\n' :: withNewlines us

/-- The consumed lines of a run match the emitted messages: each consumed
line is either whitespace-only (discarded) or parses to the next emitted
message, in order. -/
def unitsOk {V : Type} (parse : Text → Option V) : List Text → List V → Prop
  | [], [] => True
  | [], _ :: _ => False
  | u :: us, vs =>
    (strip u = [] ∧ unitsOk parse us vs) ∨
    (∃ v vs2, vs = v :: vs2 ∧ parse (strip u) = some v ∧ unitsOk parse us vs2)

/-- `buffer.lstrip().startswith("\x7b") or buffer.lstrip().startswith("[")`
applied to an already-left-stripped text: does it open an object or array? -/
def isOpener : Text → Bool
  | [] => false
  | c :: _ => c = '{' || c = '['

/-- The error taxonomy of the source (`claude_code_sdk` error classes raised
by `_patched_receive_messages`): `CLIConnectionError` ("Not connected"),
`CLIJSONDecodeError` (carries the raw buffered text; the underlying Python
exception object is not modelled), and `ProcessError` (carries the exit code
and the joined stderr text). -/
inductive SDKError where
  | cliConnectionError
  | cliJSONDecodeError (raw : Text)
  | processError (exitCode : Int) (stderr : Text)

/-- The end-of-stream flush (lines 101-110 of stream_patch.py): parse the
stripped remainder if non-empty; on failure raise `CLIJSONDecodeError` only
when the left-stripped buffer starts with an opener, else discard. -/
def flush {V : Type} (parse : Text → Option V) (buffer : Text) :
    List V × Option SDKError :=
  if strip buffer = [] then ([], none)
  else
    match parse (strip buffer) with
    | some v => ([v], none)
    | none =>
      if isOpener (lstrip buffer) then ([], some (.cliJSONDecodeError buffer))
      else ([], none)

/-- `_read_stderr`: when the stderr stream is present, each of its lines is
stripped and appended to `stderr_lines`; when absent, nothing is collected. -/
def drainStderr (hasStderrStream : Bool) (lines : List Text) : List Text :=
  if hasStderrStream then lines.map strip else []

/-- Python `"\n".join(lines)`. -/
def joinNL : List Text → Text
  | [] => []
  | [l] => l
  | l :: ls => l ++ '\n' :: joinNL ls

/-- Python `str.lower()` (character-wise). -/
def lowerText (s : Text) : Text := s.map Char.toLower

/-- The literal marker `"error"` searched for in the joined stderr text. -/
def errWord : Text := ['e', 'r', 'r', 'o', 'r']

/-- Does `pat` occur at the start of `s`? -/
def startsWithTxt : Text → Text → Bool
  | [], _ => true
  | _ :: _, [] => false
  | a :: as, b :: bs => a = b && startsWithTxt as bs

/-- Python `pat in s`: does `pat` occur as a contiguous substring of `s`? -/
def containsSub (pat : Text) : Text → Bool
  | [] => pat.isEmpty
  | c :: t => startsWithTxt pat (c :: t) || containsSub pat t

/-- Lines 112-121 of stream_patch.py: after the stream closes, wait for the
process; if `returncode not in (None, 0)` and the joined stderr text is
non-empty and contains `"error"` case-insensitively, raise `ProcessError`. -/
def exitCorrelate (returncode : Option Int) (stderrLines : List Text) :
    Option SDKError :=
  match returncode with
  | none => none
  | some code =>
    if code = 0 then none
    else
      if !(joinNL stderrLines).isEmpty &&
          containsSub errWord (lowerText (joinNL stderrLines)) then
        some (.processError code (joinNL stderrLines))
      else none

/-- The outcome of one full run of `_patched_receive_messages`: the messages
yielded in order and the terminal error, if any. -/
structure RunResult (V : Type) where
  messages : List V
  error : Option SDKError

/-- The whole of `_patched_receive_messages` as a function of the run's
inputs: the presence of the process handle, stdout stream and stderr stream,
the stdout fragments, the raw stderr lines and the process return code.
Raises `CLIConnectionError` when the process or stdout stream is absent;
otherwise decodes all fragments, flushes, and (only when the flush did not
raise) correlates the exit status with the drained stderr. -/
def receiveMessages {V : Type} (parse : Text → Option V)
    (hasProcess hasStdoutStream hasStderrStream : Bool)
    (frags : List Text) (stderrRaw : List Text) (returncode : Option Int) :
    RunResult V :=
  if !hasProcess || !hasStdoutStream then
    ⟨[], some .cliConnectionError⟩
  else
    let pr := processFragments parse frags []
    let fl := flush parse pr.2
    ⟨pr.1 ++ fl.1,
      match fl.2 with
      | some e => some e
      | none => exitCorrelate returncode (drainStderr hasStderrStream stderrRaw)⟩

/-- Example message text `\x7b"a":1\x7d` used by witnesses. -/
def exStr : Text := ['{', '\"', 'a', '\"', ':', '1', '}']

/-- Example message text `\x7b"b":2\x7d` used by witnesses. -/
def exStr2 : Text := ['{', '\"', 'b', '\"', ':', '2', '}']

/-- The structured value of `exStr`. -/
def exV : Json := .obj [(['a'], .num 1)]

/-- The structured value of `exStr2`. -/
def exV2 : Json := .obj [(['b'], .num 2)]

/-- Example unterminated message prefix `\x7b"c":` used by witnesses. -/
def exPrefixC : Text := ['{', '\"', 'c', '\"', ':']

/-- Example never-parsing line `not-json` used by witnesses. -/
def exPoison : Text := ['n', 'o', 't', '-', 'j', 's', 'o', 'n']

/-- Example stderr line `Error` used by witnesses. -/
def exErrLine : Text := ['E', 'r', 'r', 'o', 'r']

/-- Example buffer `\x7bbr` + newline + `x` holding an incomplete line. -/
def exIncomplete : Text := ['{', 'b', 'r', '\n', 'x']

/-! ### Helper lemmas about `splitNL` -/

theorem splitNL_append {L : Text} (r : Text) (h : '\n' ∉ L) :
    splitNL (L ++ '\n' :: r) = (L, r) := by
  induction L with
  | nil => simp [splitNL]
  | cons a as ih =>
    have ha : a ≠ '\n' := fun hc => h (hc ▸ List.mem_cons_self a as)
    have has : '\n' ∉ as := fun hc => h (List.mem_cons_of_mem a hc)
    simp [splitNL, ha, ih has]

theorem splitNL_reconstruct {B : Text} (h : '\n' ∈ B) :
    (splitNL B).1 ++ '\n' :: (splitNL B).2 = B := by
  induction B with
  | nil => cases h
  | cons c cs ih =>
    by_cases hc : c = '\n'
    · subst hc; simp [splitNL]
    · have hmem : '\n' ∈ cs := by
        rcases List.mem_cons.mp h with h1 | h1
        · exact absurd h1.symm hc
        · exact h1
      simp [splitNL, hc, ih hmem]

theorem splitNL_fst_no_nl (B : Text) : '\n' ∉ (splitNL B).1 := by
  induction B with
  | nil => simp [splitNL]
  | cons c cs ih =>
    by_cases hc : c = '\n'
    · subst hc; simp [splitNL]
    · simp only [splitNL, if_neg hc]
      intro hmem
      rcases List.mem_cons.mp hmem with h1 | h1
      · exact hc h1.symm
      · exact ih h1

theorem splitNL_snd_lt {B : Text} (h : '\n' ∈ B) :
    (splitNL B).2.length < B.length := by
  conv_rhs => rw [← splitNL_reconstruct h]
  simp only [List.length_append, List.length_cons]
  omega

/-! ### Unfolding lemmas for `processBuffer` -/

theorem processBufferAux_congr {V : Type} (parse : Text → Option V) :
    ∀ f₁ : Nat, ∀ {f₂ : Nat} {B : Text}, B.length < f₁ → B.length < f₂ →
      processBufferAux parse f₁ B = processBufferAux parse f₂ B := by
  intro f₁
  induction f₁ with
  | zero => intro f₂ B h1 _; omega
  | succ f ih =>
    intro f₂ B h1 h2
    cases f₂ with
    | zero => omega
    | succ g =>
      by_cases hmem : '\n' ∈ B
      · have hlt := splitNL_snd_lt hmem
        have hf : (splitNL B).2.length < f := by omega
        have hg : (splitNL B).2.length < g := by omega
        simp only [processBufferAux, if_pos hmem]
        by_cases hs : strip (splitNL B).1 = []
        · simp only [if_pos hs]
          exact ih hf hg
        · simp only [if_neg hs]
          cases parse (strip (splitNL B).1) with
          | some v => simp only [ih hf hg]
          | none => rfl
      · simp only [processBufferAux, if_neg hmem]

theorem processBufferAux_eq_pb {V : Type} (parse : Text → Option V)
    {f : Nat} {B : Text} (h : B.length < f) :
    processBufferAux parse f B = processBuffer parse B :=
  processBufferAux_congr parse f h (Nat.lt_succ_self _)

theorem processBuffer_no_nl {V : Type} (parse : Text → Option V) {B : Text}
    (h : '\n' ∉ B) : processBuffer parse B = ([], B) := by
  simp only [processBuffer, processBufferAux, if_neg h]

theorem processBuffer_eq {V : Type} (parse : Text → Option V) {B : Text}
    (h : '\n' ∈ B) :
    processBuffer parse B =
      if strip (splitNL B).1 = [] then processBuffer parse (splitNL B).2
      else
        match parse (strip (splitNL B).1) with
        | some v =>
          (v :: (processBuffer parse (splitNL B).2).1,
            (processBuffer parse (splitNL B).2).2)
        | none => ([], (splitNL B).1 ++ '\n' :: (splitNL B).2) := by
  have hlt := splitNL_snd_lt h
  have h1 : processBuffer parse B = processBufferAux parse (B.length + 1) B := rfl
  rw [h1]
  simp only [processBufferAux, if_pos h]
  rw [processBufferAux_eq_pb parse (by omega)]

theorem processBuffer_skip {V : Type} (parse : Text → Option V) {L : Text}
    (r : Text) (h1 : '\n' ∉ L) (h2 : strip L = []) :
    processBuffer parse (L ++ '\n' :: r) = processBuffer parse r := by
  have hmem : '\n' ∈ L ++ '\n' :: r := by simp
  rw [processBuffer_eq parse hmem, splitNL_append r h1]
  simp [h2]

theorem processBuffer_ok {V : Type} (parse : Text → Option V) {L : Text}
    (r : Text) {v : V} (h1 : '\n' ∉ L) (h2 : strip L ≠ [])
    (h3 : parse (strip L) = some v) :
    processBuffer parse (L ++ '\n' :: r)
      = (v :: (processBuffer parse r).1, (processBuffer parse r).2) := by
  have hmem : '\n' ∈ L ++ '\n' :: r := by simp
  rw [processBuffer_eq parse hmem, splitNL_append r h1]
  simp [h2, h3]

theorem processBuffer_fail {V : Type} (parse : Text → Option V) {L : Text}
    (r : Text) (h1 : '\n' ∉ L) (h2 : strip L ≠ [])
    (h3 : parse (strip L) = none) :
    processBuffer parse (L ++ '\n' :: r) = ([], L ++ '\n' :: r) := by
  have hmem : '\n' ∈ L ++ '\n' :: r := by simp
  rw [processBuffer_eq parse hmem, splitNL_append r h1]
  simp [h2, h3]

theorem processFragments_nil {V : Type} (parse : Text → Option V) (B : Text) :
    processFragments parse [] B = ([], B) := rfl

theorem processFragments_cons {V : Type} (parse : Text → Option V)
    (f : Text) (fs : List Text) (B : Text) :
    processFragments parse (f :: fs) B
      = ((processBuffer parse (B ++ f)).1
           ++ (processFragments parse fs (processBuffer parse (B ++ f)).2).1,
         (processFragments parse fs (processBuffer parse (B ++ f)).2).2) := rfl

/-! ### Helper lemmas about `strip`, `lstrip` and `isOpener` -/

theorem jsonParse_nil : jsonParse [] = none := rfl

theorem rstrip_eq_nil_iff {t : Text} :
    rstrip t = [] ↔ ∀ c ∈ t, isSpace c = true := by
  simp [rstrip, List.dropWhile_eq_nil_iff]

theorem strip_eq_nil_iff {s : Text} :
    strip s = [] ↔ ∀ c ∈ s, isSpace c = true := by
  constructor
  · intro h c hc
    have h2 : ∀ d ∈ lstrip s, isSpace d = true := rstrip_eq_nil_iff.mp h
    have hc2 : c ∈ List.takeWhile isSpace s ++ List.dropWhile isSpace s := by
      rw [List.takeWhile_append_dropWhile]; exact hc
    rcases List.mem_append.mp hc2 with h3 | h3
    · exact List.mem_takeWhile_imp h3
    · exact h2 c h3
  · intro h
    have hl : lstrip s = [] := List.dropWhile_eq_nil_iff.mpr h
    simp [strip, hl, rstrip]

theorem lstrip_ne_nil_of_strip {s : Text} (h : strip s ≠ []) :
    lstrip s ≠ [] := by
  intro hl
  exact h (by simp [strip, hl, rstrip])

theorem strip_append_ne_nil {L : Text} (x : Text) (h : strip L ≠ []) :
    strip (L ++ x) ≠ [] := by
  intro hall
  refine h (strip_eq_nil_iff.mpr fun c hc => ?_)
  exact strip_eq_nil_iff.mp hall c (List.mem_append.mpr (Or.inl hc))

theorem lstrip_append {L : Text} (x : Text) (h : lstrip L ≠ []) :
    lstrip (L ++ x) = lstrip L ++ x := by
  have h2 : (List.dropWhile isSpace L).isEmpty = false := by
    cases hL : List.dropWhile isSpace L with
    | nil => exact absurd hL h
    | cons a as => rfl
  simp only [lstrip, List.dropWhile_append]
  rw [if_neg (by simp [h2])]

theorem isOpener_append {t : Text} (x : Text) (h : t ≠ []) :
    isOpener (t ++ x) = isOpener t := by
  cases t with
  | nil => exact absurd rfl h
  | cons c cs => rfl

/-! ### Shape lemmas for the flush and the exit correlation -/

theorem flush_error_shape {V : Type} (parse : Text → Option V) (B : Text) :
    (flush parse B).2 = none ∨ (flush parse B).2 = some (.cliJSONDecodeError B) := by
  unfold flush
  by_cases hs : strip B = []
  · simp [hs]
  · simp only [if_neg hs]
    cases parse (strip B) with
    | some v => simp
    | none =>
      by_cases hop : isOpener (lstrip B) = true
      · simp [hop]
      · simp [hop]

theorem exitCorrelate_shape (rc : Option Int) (ls : List Text) :
    exitCorrelate rc ls = none ∨
      ∃ c t, exitCorrelate rc ls = some (.processError c t) := by
  unfold exitCorrelate
  cases rc with
  | none => simp
  | some code =>
    by_cases hc : code = 0
    · simp [hc]
    · simp only [if_neg hc]
      by_cases hm : (!(joinNL ls).isEmpty &&
          containsSub errWord (lowerText (joinNL ls))) = true
      · exact Or.inr ⟨code, joinNL ls, by simp [hm]⟩
      · simp [hm]

theorem exitCorrelate_ne_decode (rc : Option Int) (ls : List Text) (raw : Text) :
    exitCorrelate rc ls ≠ some (.cliJSONDecodeError raw) := by
  rcases exitCorrelate_shape rc ls with h | ⟨c, t, h⟩ <;> simp [h]

theorem exitCorrelate_ne_conn (rc : Option Int) (ls : List Text) :
    exitCorrelate rc ls ≠ some .cliConnectionError := by
  rcases exitCorrelate_shape rc ls with h | ⟨c, t, h⟩ <;> simp [h]

theorem lstrip_eq_nil_of_strip {s : Text} (h : strip s = []) : lstrip s = [] :=
  List.dropWhile_eq_nil_iff.mpr (strip_eq_nil_iff.mp h)

/-- The composed pipeline when the process handle and stdout stream are
present: decode all fragments, flush, then correlate exit status. -/
theorem receiveMessages_connected {V : Type} (parse : Text → Option V)
    (hse : Bool) (frags st : List Text) (rc : Option Int) :
    receiveMessages parse true true hse frags st rc
      = ⟨(processFragments parse frags []).1
           ++ (flush parse (processFragments parse frags []).2).1,
         match (flush parse (processFragments parse frags []).2).2 with
         | some e => some e
         | none => exitCorrelate rc (drainStderr hse st)⟩ := rfl

/-! ### The consumed-units invariant -/

theorem unitsOk_append {V : Type} (parse : Text → Option V) :
    ∀ us1 vs1 us2 vs2, unitsOk parse us1 vs1 → unitsOk parse us2 vs2 →
      unitsOk parse (us1 ++ us2) (vs1 ++ vs2) := by
  intro us1
  induction us1 with
  | nil =>
    intro vs1 us2 vs2 h1 h2
    cases vs1 with
    | nil => simpa using h2
    | cons v vs => exact absurd h1 id
  | cons u us ih =>
    intro vs1 us2 vs2 h1 h2
    have h1' : (strip u = [] ∧ unitsOk parse us vs1) ∨
        (∃ v vs2', vs1 = v :: vs2' ∧ parse (strip u) = some v ∧
          unitsOk parse us vs2') := h1
    rcases h1' with ⟨hs, htl⟩ | ⟨v, vs', hvs, hp, htl⟩
    · exact Or.inl ⟨hs, ih _ _ _ htl h2⟩
    · subst hvs
      exact Or.inr ⟨v, vs' ++ vs2, by simp, hp, ih _ _ _ htl h2⟩

theorem withNewlines_append : ∀ us1 us2 : List Text,
    withNewlines (us1 ++ us2) = withNewlines us1 ++ withNewlines us2 := by
  intro us1 us2
  induction us1 with
  | nil => simp [withNewlines]
  | cons u us ih => simp [withNewlines, ih]

theorem processBuffer_consumed {V : Type} (parse : Text → Option V) :
    ∀ n B, B.length ≤ n →
      ∃ us, unitsOk parse us (processBuffer parse B).1 ∧
        B = withNewlines us ++ (processBuffer parse B).2 := by
  intro n
  induction n with
  | zero =>
    intro B hB
    have hB0 : B = [] := List.length_eq_zero.mp (Nat.le_zero.mp hB)
    subst hB0
    refine ⟨[], ?_, ?_⟩
    · rw [processBuffer_no_nl parse (by simp)]; trivial
    · rw [processBuffer_no_nl parse (by simp)]; rfl
  | succ n ih =>
    intro B hB
    by_cases hmem : '\n' ∈ B
    · have hrec := splitNL_reconstruct hmem
      have hL := splitNL_fst_no_nl B
      have hlen : (splitNL B).2.length ≤ n := by
        have := splitNL_snd_lt hmem; omega
      by_cases hs : strip (splitNL B).1 = []
      · have hpb : processBuffer parse B = processBuffer parse (splitNL B).2 := by
          conv_lhs => rw [← hrec]
          exact processBuffer_skip parse _ hL hs
        obtain ⟨us, hu, hb⟩ := ih (splitNL B).2 hlen
        refine ⟨(splitNL B).1 :: us, ?_, ?_⟩
        · rw [hpb]; exact Or.inl ⟨hs, hu⟩
        · rw [hpb]
          have step := congrArg (fun t => (splitNL B).1 ++ '\n' :: t) hb
          refine (hrec.symm.trans step).trans ?_
          simp [withNewlines]
      · cases hp : parse (strip (splitNL B).1) with
        | some v =>
          have hpb : processBuffer parse B
              = (v :: (processBuffer parse (splitNL B).2).1,
                 (processBuffer parse (splitNL B).2).2) := by
            conv_lhs => rw [← hrec]
            exact processBuffer_ok parse _ hL hs hp
          obtain ⟨us, hu, hb⟩ := ih (splitNL B).2 hlen
          refine ⟨(splitNL B).1 :: us, ?_, ?_⟩
          · rw [hpb]
            exact Or.inr ⟨v, (processBuffer parse (splitNL B).2).1, rfl, hp, hu⟩
          · rw [hpb]
            have step := congrArg (fun t => (splitNL B).1 ++ '\n' :: t) hb
            refine (hrec.symm.trans step).trans ?_
            simp [withNewlines]
        | none =>
          have hpb : processBuffer parse B = ([], B) := by
            conv_lhs => rw [← hrec]
            rw [processBuffer_fail parse _ hL hs hp, hrec]
          refine ⟨[], ?_, ?_⟩
          · rw [hpb]; trivial
          · rw [hpb]; rfl
    · refine ⟨[], ?_, ?_⟩
      · rw [processBuffer_no_nl parse hmem]; trivial
      · rw [processBuffer_no_nl parse hmem]; rfl

theorem processFragments_consumed {V : Type} (parse : Text → Option V) :
    ∀ (frags : List Text) (B : Text),
      ∃ us, unitsOk parse us (processFragments parse frags B).1 ∧
        B ++ frags.flatten
          = withNewlines us ++ (processFragments parse frags B).2 := by
  intro frags
  induction frags with
  | nil =>
    intro B
    refine ⟨[], trivial, ?_⟩
    simp [processFragments_nil, withNewlines]
  | cons f fs ih =>
    intro B
    obtain ⟨us1, hu1, hb1⟩ :=
      processBuffer_consumed parse (B ++ f).length (B ++ f) le_rfl
    obtain ⟨us2, hu2, hb2⟩ := ih (processBuffer parse (B ++ f)).2
    refine ⟨us1 ++ us2, ?_, ?_⟩
    · simp only [processFragments_cons]
      exact unitsOk_append parse _ _ _ _ hu1 hu2
    · simp only [processFragments_cons]
      calc B ++ (f :: fs).flatten = (B ++ f) ++ fs.flatten := by
            simp [List.append_assoc]
        _ = (withNewlines us1 ++ (processBuffer parse (B ++ f)).2) ++ fs.flatten :=
            congrArg (· ++ fs.flatten) hb1
        _ = withNewlines us1
              ++ ((processBuffer parse (B ++ f)).2 ++ fs.flatten) := by
            simp [List.append_assoc]
        _ = withNewlines us1 ++ (withNewlines us2
              ++ (processFragments parse fs (processBuffer parse (B ++ f)).2).2) := by
            rw [hb2]
        _ = withNewlines (us1 ++ us2)
              ++ (processFragments parse fs (processBuffer parse (B ++ f)).2).2 := by
            rw [withNewlines_append]; simp [List.append_assoc]

/-! ### The claims -/

/-- C1: for every structured value V whose newline-free serialized text
parses back to V, splitting `serialize(V) + newline` into two fragments at
any byte offset and decoding the two fragments in order yields exactly the
one-element message sequence `[V]`, with no terminal error. -/
theorem C1_serialize_split_roundtrip (V : Json) (s : Text)
    (hnl : '\n' ∉ s) (hp : jsonParse (strip s) = some V) (k : Nat) :
    receiveMessages jsonParse true true true
      [(s ++ ['\n']).take k, (s ++ ['\n']).drop k] [] (some 0)
      = ⟨[V], none⟩ := by
  have hs : strip s ≠ [] := by
    intro h
    rw [h, jsonParse_nil] at hp
    exact Option.noConfusion hp
  have hpb : processBuffer jsonParse (s ++ '\n' :: ([] : Text)) = ([V], []) := by
    rw [processBuffer_ok jsonParse [] hnl hs hp,
        processBuffer_no_nl jsonParse (by simp)]
  have hpf : processFragments jsonParse
      [(s ++ ['\n']).take k, (s ++ ['\n']).drop k] [] = ([V], []) := by
    by_cases hk : k ≤ s.length
    · have htake : (s ++ ['\n']).take k = s.take k :=
        List.take_append_of_le_length hk
      have hnm : '\n' ∉ (s ++ ['\n']).take k := by
        rw [htake]
        intro hmemk
        exact hnl (List.take_subset k s hmemk)
      have e1 : processBuffer jsonParse ((s ++ ['\n']).take k)
          = ([], (s ++ ['\n']).take k) := processBuffer_no_nl jsonParse hnm
      have e2 : processBuffer jsonParse
          ((s ++ ['\n']).take k ++ (s ++ ['\n']).drop k) = ([V], []) := by
        rw [List.take_append_drop]
        exact hpb
      simp [processFragments_cons, processFragments_nil, e1, e2, hpb]
    · have htake : (s ++ ['\n']).take k = s ++ ['\n'] :=
        List.take_of_length_le (by simp; omega)
      have hdrop : (s ++ ['\n']).drop k = [] :=
        List.drop_eq_nil_iff.mpr (by simp; omega)
      have e3 : processBuffer jsonParse ([] : Text) = ([], []) :=
        processBuffer_no_nl jsonParse (by simp)
      simp [processFragments_cons, processFragments_nil, htake, hdrop, hpb, e3]
  have hfl : flush jsonParse ([] : Text) = ([], none) := rfl
  have hec : exitCorrelate (some 0) (drainStderr true []) = none := rfl
  rw [receiveMessages_connected]
  rw [hpf]
  simp [hfl, hec]

/-- C1 witness: the concrete value at `exStr` split at offset 3. -/
theorem C1_witness :
    receiveMessages jsonParse true true true
      [(exStr ++ ['\n']).take 3, (exStr ++ ['\n']).drop 3] [] (some 0)
      = ⟨[exV], none⟩ :=
  C1_serialize_split_roundtrip exV exStr (by decide) rfl 3

/-- The K complete lines of C2 all parse, so `processBuffer` consumes them
all and leaves the newline-free tail as the buffer. -/
theorem processBuffer_lines {Ls : List Text} {Vs : List Json} (P : Text)
    (hL : List.Forall₂
      (fun L V => '\n' ∉ L ∧ jsonParse (strip L) = some V) Ls Vs)
    (hP : '\n' ∉ P) :
    processBuffer jsonParse (withNewlines Ls ++ P) = (Vs, P) := by
  induction hL with
  | nil => simpa [withNewlines] using processBuffer_no_nl jsonParse hP
  | @cons L V Ls2 Vs2 h htail ih =>
    obtain ⟨hnl, hp⟩ := h
    have hs : strip L ≠ [] := by
      intro h0
      rw [h0, jsonParse_nil] at hp
      exact Option.noConfusion hp
    have hsh : withNewlines (L :: Ls2) ++ P
        = L ++ '\n' :: (withNewlines Ls2 ++ P) := by
      simp [withNewlines]
    rw [hsh, processBuffer_ok jsonParse _ hnl hs hp, ih]

/-- C2: a single fragment holding K complete serialized message lines
followed by a newline-free trailing prefix emits exactly the K messages in
line order before any later fragment is read; the trailing prefix is left
in the buffer, from which the later fragments continue. -/
theorem C2_complete_lines_one_fragment (Ls : List Text) (Vs : List Json)
    (P : Text) (fs : List Text)
    (hL : List.Forall₂
      (fun L V => '\n' ∉ L ∧ jsonParse (strip L) = some V) Ls Vs)
    (hP : '\n' ∉ P) :
    processFragments jsonParse ((withNewlines Ls ++ P) :: fs) []
      = (Vs ++ (processFragments jsonParse fs P).1,
         (processFragments jsonParse fs P).2) := by
  have hkey := processBuffer_lines P hL hP
  simp [processFragments_cons, hkey]

/-- C2 witness: two complete lines and an unterminated prefix. -/
theorem C2_witness :
    processFragments jsonParse [withNewlines [exStr, exStr2] ++ exPrefixC] []
      = ([exV, exV2] ++ (processFragments jsonParse [] exPrefixC).1,
         (processFragments jsonParse [] exPrefixC).2) :=
  C2_complete_lines_one_fragment [exStr, exStr2] [exV, exV2] exPrefixC []
    (List.Forall₂.cons ⟨by decide, rfl⟩
      (List.Forall₂.cons ⟨by decide, rfl⟩ List.Forall₂.nil))
    (by decide)

/-- C3: the end-of-stream flush is a four-way case split on the leftover
buffer: whitespace-only leftovers emit nothing and raise nothing; a parsing
leftover is emitted as the final message; a non-parsing leftover whose
left-stripped text opens with a brace or bracket raises
`CLIJSONDecodeError` carrying the raw leftover; any other non-parsing
leftover is discarded silently. -/
theorem C3_flush_cases (frags : List Text) :
    (strip (processFragments jsonParse frags []).2 = [] →
        receiveMessages jsonParse true true true frags [] (some 0)
          = ⟨(processFragments jsonParse frags []).1, none⟩) ∧
    (∀ v, jsonParse (strip (processFragments jsonParse frags []).2) = some v →
        receiveMessages jsonParse true true true frags [] (some 0)
          = ⟨(processFragments jsonParse frags []).1 ++ [v], none⟩) ∧
    (jsonParse (strip (processFragments jsonParse frags []).2) = none →
      isOpener (lstrip (processFragments jsonParse frags []).2) = true →
        receiveMessages jsonParse true true true frags [] (some 0)
          = ⟨(processFragments jsonParse frags []).1,
             some (.cliJSONDecodeError (processFragments jsonParse frags []).2)⟩) ∧
    (jsonParse (strip (processFragments jsonParse frags []).2) = none →
      isOpener (lstrip (processFragments jsonParse frags []).2) = false →
        receiveMessages jsonParse true true true frags [] (some 0)
          = ⟨(processFragments jsonParse frags []).1, none⟩) := by
  have hec : exitCorrelate (some 0) (drainStderr true []) = none := rfl
  refine ⟨?_, ?_, ?_, ?_⟩
  · intro h
    have hfl : flush jsonParse (processFragments jsonParse frags []).2
        = ([], none) := by simp [flush, h]
    rw [receiveMessages_connected]
    simp [hfl, hec]
  · intro v h
    have hs : strip (processFragments jsonParse frags []).2 ≠ [] := by
      intro h0
      rw [h0, jsonParse_nil] at h
      exact Option.noConfusion h
    have hfl : flush jsonParse (processFragments jsonParse frags []).2
        = ([v], none) := by simp [flush, hs, h]
    rw [receiveMessages_connected]
    simp [hfl, hec]
  · intro h hop
    have hs : strip (processFragments jsonParse frags []).2 ≠ [] := by
      intro h0
      rw [lstrip_eq_nil_of_strip h0] at hop
      exact Bool.noConfusion hop
    have hfl : flush jsonParse (processFragments jsonParse frags []).2
        = ([], some (.cliJSONDecodeError (processFragments jsonParse frags []).2)) := by
      simp [flush, hs, h, hop]
    rw [receiveMessages_connected]
    simp [hfl]
  · intro h hop
    by_cases hs : strip (processFragments jsonParse frags []).2 = []
    · have hfl : flush jsonParse (processFragments jsonParse frags []).2
          = ([], none) := by simp [flush, hs]
      rw [receiveMessages_connected]
      simp [hfl, hec]
    · have hfl : flush jsonParse (processFragments jsonParse frags []).2
          = ([], none) := by simp [flush, hs, h, hop]
      rw [receiveMessages_connected]
      simp [hfl, hec]

/-- C4: when the flush raises nothing, `ProcessError` is raised if and only
if the exit status is non-zero (and present) and the joined stripped stderr
lines contain `"error"` case-insensitively; the raised error carries the
exit code and the joined stderr text, and in every other case the run
completes without error. -/
theorem C4_exit_correlation (frags st : List Text) (rc : Option Int)
    (hfl : (flush jsonParse (processFragments jsonParse frags []).2).2 = none) :
    ((∀ code : Int, rc = some code → code ≠ 0 →
        containsSub errWord (lowerText (joinNL (st.map strip))) = true →
        (receiveMessages jsonParse true true true frags st rc).error
          = some (.processError code (joinNL (st.map strip)))) ∧
     ((rc = none ∨ rc = some 0 ∨
        containsSub errWord (lowerText (joinNL (st.map strip))) = false) →
        (receiveMessages jsonParse true true true frags st rc).error = none)) := by
  have hdr : drainStderr true st = st.map strip := rfl
  constructor
  · intro code hrc hc0 hmark
    subst hrc
    have hne : joinNL (st.map strip) ≠ [] := by
      intro h0
      rw [h0] at hmark
      exact Bool.noConfusion hmark
    have hie : (joinNL (st.map strip)).isEmpty = false := by
      cases hj : joinNL (st.map strip) with
      | nil => exact absurd hj hne
      | cons a as => rfl
    rw [receiveMessages_connected]
    simp only [hfl]
    simp [exitCorrelate, hdr, hc0, hie, hmark]
  · intro hcase
    rw [receiveMessages_connected]
    simp only [hfl]
    rcases hcase with h | h | h
    · subst h; simp [exitCorrelate]
    · subst h; simp [exitCorrelate]
    · cases rc with
      | none => simp [exitCorrelate]
      | some code =>
        by_cases hc0 : code = 0
        · simp [exitCorrelate, hc0]
        · simp [exitCorrelate, hc0, hdr, h]

/-- C4 witness: exit code 1 with a stderr line containing `Error`. -/
theorem C4_witness :
    (receiveMessages jsonParse true true true [] [exErrLine] (some 1)).error
      = some (.processError 1 (joinNL ([exErrLine].map strip))) :=
  (C4_exit_correlation [] [exErrLine] (some 1) rfl).1 1 rfl
    (by decide) (by decide)

/-- C5: a mid-stream candidate line that fails to parse raises nothing:
the buffer is reconstructed as `candidate + newline + rest`, which is
exactly the buffer before the split (no text lost), and processing of the
current fragment stops there. -/
theorem C5_midstream_reinsert (B : Text) (h : '\n' ∈ B)
    (h2 : strip (splitNL B).1 ≠ [])
    (h3 : jsonParse (strip (splitNL B).1) = none) :
    processBuffer jsonParse B
        = ([], (splitNL B).1 ++ '\n' :: (splitNL B).2) ∧
      (splitNL B).1 ++ '\n' :: (splitNL B).2 = B := by
  refine ⟨?_, splitNL_reconstruct h⟩
  rw [processBuffer_eq jsonParse h]
  simp [h2, h3]

/-- C5 witness: the buffer `\x7bbr`, newline, `x`. -/
theorem C5_witness :
    processBuffer jsonParse exIncomplete
        = ([], (splitNL exIncomplete).1 ++ '\n' :: (splitNL exIncomplete).2) ∧
      (splitNL exIncomplete).1 ++ '\n' :: (splitNL exIncomplete).2
        = exIncomplete :=
  C5_midstream_reinsert exIncomplete (by decide) (by decide) rfl

/-- C6: buffer invariant — after any fragment sequence is processed, the
concatenation of all fragments equals the consumed lines (each a discarded
whitespace-only line or a line decoded to the next emitted message, in
order, each followed by its newline) followed by the current buffer:
no received text is dropped or duplicated. -/
theorem C6_buffer_invariant (frags : List Text) :
    ∃ us : List Text,
      unitsOk jsonParse us (processFragments jsonParse frags []).1 ∧
      frags.flatten
        = withNewlines us ++ (processFragments jsonParse frags []).2 := by
  obtain ⟨us, h1, h2⟩ := processFragments_consumed jsonParse frags []
  exact ⟨us, h1, by simpa using h2⟩

/-- C7 counterexample: with the process handle and stdout stream present
but the stderr (diagnostic) stream absent, no `CLIConnectionError` is
raised — a message is decoded and the run completes without error, against
the claim that an absent diagnostic stream alone raises immediately. -/
theorem C7_counterexample :
    receiveMessages jsonParse true true false [exStr ++ ['\n']] [] (some 0)
        = ⟨[exV], none⟩ ∧
      (receiveMessages jsonParse true true false [exStr ++ ['\n']] [] (some 0)).error
        ≠ some SDKError.cliConnectionError :=
  ⟨rfl, fun h => Option.noConfusion h⟩

/-- C7 (amended): `CLIConnectionError` is raised immediately, with no
fragment read and no message emitted, exactly when the process handle or
the stdout (fragment) stream is absent; an absent stderr (diagnostic)
stream alone never raises it — the drain is simply skipped. -/
theorem C7_connection_check (hp hs hse : Bool) (frags st : List Text)
    (rc : Option Int) :
    ((hp = false ∨ hs = false) →
      receiveMessages jsonParse hp hs hse frags st rc
        = ⟨[], some .cliConnectionError⟩) ∧
    (hp = true → hs = true →
      (receiveMessages jsonParse hp hs hse frags st rc).error
        ≠ some .cliConnectionError) := by
  constructor
  · rintro (h | h) <;> subst h <;> simp [receiveMessages]
  · intro hhp hhs
    subst hhp; subst hhs
    rw [receiveMessages_connected]
    rcases flush_error_shape jsonParse
        (processFragments jsonParse frags []).2 with hf | hf <;>
      simp only [hf]
    · rcases exitCorrelate_shape rc (drainStderr hse st) with h | ⟨c, t, h⟩ <;>
        simp [h]
    · simp

/-- C9: a newline-terminated line that can never parse and does not open
with a brace or bracket permanently heads the buffer: even when complete
valid message lines follow it in the same fragment, the run emits no
messages and raises no error (the whole leftover is discarded silently at
the flush, and exit status 0 correlates cleanly). -/
theorem C9_poison_line_blocks (L rest : Text)
    (hnl : '\n' ∉ L) (hs : strip L ≠ [])
    (hp : jsonParse (strip L) = none)
    (hall : jsonParse (strip (L ++ '\n' :: rest)) = none)
    (hop : isOpener (lstrip L) = false) :
    receiveMessages jsonParse true true true [L ++ '\n' :: rest] [] (some 0)
      = ⟨[], none⟩ := by
  have hpb : processBuffer jsonParse (L ++ '\n' :: rest)
      = ([], L ++ '\n' :: rest) := processBuffer_fail jsonParse rest hnl hs hp
  have hpf : processFragments jsonParse [L ++ '\n' :: rest] []
      = ([], L ++ '\n' :: rest) := by
    simp [processFragments_cons, processFragments_nil, hpb]
  have hlne : lstrip L ≠ [] := lstrip_ne_nil_of_strip hs
  have hop2 : isOpener (lstrip (L ++ '\n' :: rest)) = false := by
    rw [lstrip_append _ hlne, isOpener_append _ hlne, hop]
  have hsne : strip (L ++ '\n' :: rest) ≠ [] := strip_append_ne_nil _ hs
  have hfl : flush jsonParse (L ++ '\n' :: rest) = ([], none) := by
    simp [flush, hsne, hall, hop2]
  have hec : exitCorrelate (some 0) (drainStderr true []) = none := rfl
  rw [receiveMessages_connected, hpf]
  simp [hfl, hec]

/-- C9 witness: the single fragment `not-json`, newline, a valid message
line — nothing is emitted and nothing raised. -/
theorem C9_witness :
    receiveMessages jsonParse true true true
      [exPoison ++ '\n' :: (exStr ++ ['\n'])] [] (some 0) = ⟨[], none⟩ :=
  C9_poison_line_blocks exPoison (exStr ++ ['\n'])
    (by decide) (by decide) rfl rfl rfl

/-- C10: noninterference of diagnostics with message content — two runs
with the same fragments but arbitrary stderr streams (present or absent)
and exit codes emit identical message sequences, and agree on whether a
`CLIJSONDecodeError` (with which raw text) or a `CLIConnectionError` is
raised; stderr and exit code can only influence a terminal `ProcessError`. -/
theorem C10_diagnostics_noninterference (hp hs hse1 hse2 : Bool)
    (frags st1 st2 : List Text) (rc1 rc2 : Option Int) :
    (receiveMessages jsonParse hp hs hse1 frags st1 rc1).messages
        = (receiveMessages jsonParse hp hs hse2 frags st2 rc2).messages ∧
    (∀ raw, (receiveMessages jsonParse hp hs hse1 frags st1 rc1).error
          = some (.cliJSONDecodeError raw) ↔
        (receiveMessages jsonParse hp hs hse2 frags st2 rc2).error
          = some (.cliJSONDecodeError raw)) ∧
    ((receiveMessages jsonParse hp hs hse1 frags st1 rc1).error
          = some .cliConnectionError ↔
        (receiveMessages jsonParse hp hs hse2 frags st2 rc2).error
          = some .cliConnectionError) := by
  cases hp with
  | false => simp [receiveMessages]
  | true =>
    cases hs with
    | false => simp [receiveMessages]
    | true =>
      simp only [receiveMessages_connected]
      rcases flush_error_shape jsonParse
          (processFragments jsonParse frags []).2 with hf | hf
      · simp [hf, exitCorrelate_ne_decode, exitCorrelate_ne_conn]
      · simp [hf]

end StreamPatch
